import Mathlib

/-!
Verification of the trajectory-modelling core (`teetool/model.py`) against its
natural-language specification.

The Python code is shallowly embedded: numpy float arrays over trajectories
become Lean lists/functions over `ℚ` (exact arithmetic stands in for IEEE
doubles wherever the claims are about values, and abstract parameters stand in
for external numeric kernels such as `numpy.linalg.svd` or the basis module,
which are not part of the sources under verification).  Stateful Python code
(the per-instance query caches, the global numpy RNG, the in-place list update
performed by `_normalise_data`) is embedded by explicit state passing.
-/

namespace Teetool

/-- A trajectory sample: the progress array `x` paired with the position
matrix `Y`, stored as a list of rows (one row per progress value, one column
per spatial dimension).  Mirrors the `(x, Y)` tuples of `cluster_data`. -/
abbrev Traj : Type := List ℚ × List (List ℚ)

/-- Embedding of `np.linspace(a, b, n)`: `n` evenly spaced points from `a` to
`b` inclusive (`n = 1` gives `[a]`, `n = 0` gives `[]`). -/
def linspace (a b : ℚ) (n : ℕ) : List ℚ :=
  if n ≤ 1 then (List.range n).map (fun _ => a)
  else (List.range n).map (fun i => a + (b - a) * i / (n - 1))

/-- Embedding of `np.interp(t, xn, yn)` for one query point: linear
interpolation against the sample points `(xn, yn)`, clamped to the first /
last value outside the sampled range.  Mismatched or empty inputs (which make
numpy raise) return the junk value `0`. -/
def interp1 (t : ℚ) : List ℚ → List ℚ → ℚ
  | x0 :: x1 :: xs, y0 :: y1 :: ys =>
    if t ≤ x0 then y0
    else if t ≤ x1 then y0 + (t - x0) * (y1 - y0) / (x1 - x0)
    else interp1 t (x1 :: xs) (y1 :: ys)
  | [_], y0 :: _ => y0
  | _, _ => 0

/-- Column `d` of a position matrix stored as a list of rows
(`Yn[:, d]` in the source). -/
def col (Y : List (List ℚ)) (d : ℕ) : List ℚ :=
  Y.map (fun row => row.getD d 0)

/-- One trajectory resampled onto the uniform progress grid and stacked into a
single column, station-then-dimension layout: entry `d * ngaus + g` is channel
`d` interpolated at grid point `g`.  This is the `yp1 = np.reshape(yp, (-1,1),
order='F')` column built inside `_model_by_resampling`. -/
def resampleTraj (ngaus : ℕ) (tr : Traj) (i : ℕ) : ℚ :=
  interp1 ((linspace 0 1 ngaus).getD (i % ngaus) 0) tr.1 (col tr.2 (i / ngaus))

/-- Embedding of `Model._model_by_resampling`: resample every trajectory onto
the common grid, then return the arithmetic mean of the stacked columns and
the biased (divide-by-N) empirical covariance about that mean.  Vectors and
matrices are index functions; indices outside `[0, ndim*ngaus)` carry the same
formulas (numpy would not materialise them, no claim depends on them). -/
def model_by_resampling (ngaus : ℕ) (cluster : List Traj) :
    (ℕ → ℚ) × (ℕ → ℕ → ℚ) :=
  let yc := cluster.map (resampleTraj ngaus)
  let ntraj : ℚ := cluster.length
  let mu : ℕ → ℚ := fun i => (yc.foldl (fun acc yn => acc + yn i) 0) / ntraj
  let sig : ℕ → ℕ → ℚ := fun i j =>
    (yc.foldl (fun acc yn => acc + (yn i - mu i) * (yn j - mu j)) 0) / ntraj
  (mu, sig)

/-- Embedding of `Model.getMean`: reshape the stored joint mean (length
`ndim * S`) into `S` rows in column-major (`order='F'`) fashion, so row `s`
has coordinates `mu_y[s + d*S]`, then emit `[x, y, z]` rows where the `z`
column is filled with zeros in the two-dimensional case.  Spatial dimensions
other than 2 are routed to the 3-dimensional branch; the Python code only ever
runs with `ndim ∈ {2, 3}`. -/
def reshapeF (S : ℕ) (mu_y : List ℚ) (s d : ℕ) : ℚ :=
  mu_y.getD (s + d * S) 0

/-- The `getMean` query itself (see `reshapeF`). -/
def getMean (ndim : ℕ) (mu_y : List ℚ) : List (List ℚ) :=
  let S := mu_y.length / ndim
  (List.range S).map (fun s =>
    [reshapeF S mu_y s 0, reshapeF S mu_y s 1,
     if ndim = 2 then 0 else reshapeF S mu_y s 2])

/-- Embedding of `x.min()` on a (nonempty) numpy array. -/
def aMin (l : List ℚ) : ℚ := l.foldl min (l.headD 0)

/-- Embedding of `x.max()` on a (nonempty) numpy array. -/
def aMax (l : List ℚ) : ℚ := l.foldl max (l.headD 0)

/-- One iteration of the `Model._getMinMax` loop: compare a trajectory's
progress extremes against the running extremes.  The float infinities used as
initial accumulators are embedded as `none` (every comparison against them
succeeds, exactly as in the source). -/
def mmStep (mm : Option ℚ × Option ℚ) (tr : Traj) : Option ℚ × Option ℚ :=
  let x1min := aMin tr.1
  let x1max := aMax tr.1
  (match mm.1 with
   | none => some x1min
   | some m => if x1min < m then some x1min else some m,
   match mm.2 with
   | none => some x1max
   | some m => if x1max < m then some m else some x1max)

/-- Embedding of `Model._getMinMax`: fold over the trajectories keeping the
running global minimum / maximum of the progress arrays. -/
def getMinMax (cluster : List Traj) : Option ℚ × Option ℚ :=
  cluster.foldl mmStep (none, none)

/-- Embedding of `Model._getNorm`: the affine rescale
`(x - xmin) / (xmax - xmin)`, applied with no guard on the divisor. -/
def getNorm (x : List ℚ) (mm : ℚ × ℚ) : List ℚ :=
  x.map (fun t => (t - mm.1) / (mm.2 - mm.1))

/-- Embedding of `Model._normalise_data`.  The Python function overwrites the
slots of the very list object the caller passed in (`cluster_data[i] = (x, Y)`)
and returns that same list, so this value is both the fitting input and what
the caller's variable observes after construction.  On an empty cluster the
min/max stay at their infinite initial values; the `getD 0` placeholders below
stand for those never-normalised infinities. -/
def normalise_data (cluster : List Traj) : List Traj :=
  let mm := getMinMax cluster
  cluster.map (fun tr => (getNorm tr.1 ((mm.1).getD 0, (mm.2).getD 0), tr.2))

/-- Embedding of `Model._getDimension`: the column count of the first
trajectory's position matrix. -/
def getDimension (cluster : List Traj) : ℕ :=
  (((cluster.headD ([], [])).2).headD []).length

/-- A value stored in the settings dictionary: a string, a Python `int`, or
anything else. -/
inductive SVal : Type
  | str (v : String)
  | int (v : ℤ)
  | other
deriving DecidableEq

/-- The settings dictionary, restricted to the keys the constructor reads.
`none` models an absent key. -/
structure Settings : Type where
  model_type : Option SVal
  ngaus : Option SVal
  basis_type : Option SVal
  nbasis : Option SVal
deriving DecidableEq

/-- Embedding of the validation prologue of `Model.__init__` (lines 35-56):
presence and type of `model_type`, presence and type of `ngaus`, and - for the
`ML`/`EM` model types only - presence of `basis_type`/`nbasis` and the
`nbasis < 2` bound.  A non-`int` `nbasis` slips through the `< 2` comparison
(Python 2 orders strings above ints), mirrored by the final catch-all. -/
def validateSettings (st : Settings) : Except String Unit :=
  match st.model_type with
  | none => .error "settings has no model_type"
  | some (SVal.int _) | some SVal.other => .error "expected string"
  | some (SVal.str mts) =>
    match st.ngaus with
    | none => .error "settings has no ngaus"
    | some (SVal.str _) | some SVal.other => .error "expected int"
    | some (SVal.int _) =>
      if mts = "ML" ∨ mts = "EM" then
        match st.basis_type with
        | none => .error "settings has no basis_type"
        | some _ =>
          match st.nbasis with
          | none => .error "settings has no nbasis"
          | some (SVal.int nb) =>
            if nb < 2 then .error "nbasis should be larger than 2" else .ok ()
          | some _ => .ok ()
      else .ok ()

/-- Embedding of `Model._getMuSigma`: slice station `npoint` out of the joint
mean/covariance (`c[d] = mu_y[npoint + d*ngaus]`,
`A[dr,dc] = sig_y[npoint + dr*ngaus, npoint + dc*ngaus]`).  The range check of
the source never fires on the in-range indices `_getGMMCells` supplies. -/
def getMuSigma (mu_y : ℕ → ℚ) (sig_y : ℕ → ℕ → ℚ) (npoint ngaus : ℕ) :
    (ℕ → ℚ) × (ℕ → ℕ → ℚ) :=
  (fun d_row => mu_y (npoint + d_row * ngaus),
   fun d_row d_col => sig_y (npoint + d_row * ngaus) (npoint + d_col * ngaus))

/-- Embedding of `Model._getGMMCells`.  `nspd` is the external
`helpers.nearest_spd` collaborator (symmetric-positive-definite repair),
passed in as a parameter since its module is not part of the sources. -/
def getGMMCells (nspd : (ℕ → ℕ → ℚ) → (ℕ → ℕ → ℚ)) (mu_y : ℕ → ℚ)
    (sig_y : ℕ → ℕ → ℚ) (ngaus : ℕ) :
    List (ℕ → ℚ) × List (ℕ → ℕ → ℚ) :=
  let cells := (List.range ngaus).map (fun m =>
    let cA := getMuSigma mu_y sig_y m ngaus
    (cA.1, nspd cA.2))
  (cells.map Prod.fst, cells.map Prod.snd)

/-- The stored model state after a successful construction. -/
structure Model : Type where
  ndim : ℕ
  mu_y : ℕ → ℚ
  sig_y : ℕ → ℕ → ℚ
  cc : List (ℕ → ℚ)
  cA : List (ℕ → ℕ → ℚ)

/-- Embedding of `Model.__init__`: validate the settings, take the dimension
from the first trajectory, normalise the cluster data (in place - the second
component of the result is the content of the caller's list after the call
returns), dispatch on the model type, and split the fitted joint mean and
covariance into station cells.  The `ML`/`EM` fitters need the external basis
module and are abstract parameters; `numpy.linspace` aborts the resampling fit
when handed a negative station count, embedded by the explicit error branch.
Errors are the `ValueError`/`TypeError`/`NotImplementedError` raised by the
source. -/
def modelInit (nspd : (ℕ → ℕ → ℚ) → (ℕ → ℕ → ℚ))
    (fitML fitEM : List Traj → ℕ → SVal → Option SVal → (ℕ → ℚ) × (ℕ → ℕ → ℚ))
    (cluster : List Traj) (st : Settings) :
    Except String (Model × List Traj) :=
  match validateSettings st with
  | .error e => .error e
  | .ok _ =>
    match st.model_type, st.ngaus with
    | some (SVal.str mts), some (SVal.int ng) =>
      let ndim := getDimension cluster
      let ncd := normalise_data cluster
      let fit : Except String ((ℕ → ℚ) × (ℕ → ℕ → ℚ)) :=
        if mts = "resampling" then
          if ng < 0 then .error "Number of samples, -ngaus-, must be non-negative"
          else .ok (model_by_resampling ng.toNat ncd)
        else if mts = "ML" then
          .ok (fitML ncd ng.toNat ((st.basis_type).getD SVal.other) st.nbasis)
        else if mts = "EM" then
          .ok (fitEM ncd ng.toNat ((st.basis_type).getD SVal.other) st.nbasis)
        else .error (mts ++ " not available")
      match fit with
      | .error e => .error e
      | .ok musig =>
        let cells := getGMMCells nspd musig.1 musig.2 ng.toNat
        .ok (⟨ndim, musig.1, musig.2, cells.1, cells.2⟩, ncd)
    | _, _ => .error "unreachable: validation guarantees these keys"

/-- Hardcoded EM parameter: maximum number of iterations (`MAX_ITERATIONS`). -/
def EM_MAX_ITERATIONS : ℕ := 2001

/-- Hardcoded EM parameter: convergence tolerance on the log-likelihood change
(`CONV_LIKELIHOOD = 1e-3`). -/
def EM_CONV_LIKELIHOOD : ℚ := 1 / 1000

/-- The EM loop of `Model._model_by_em` (lines 713-838), embedded with the
numerical kernel abstracted: `step` is one expectation + maximisation pass
over the parameter state (weight-prior mean and covariance, noise precision),
and `llOf` evaluates the joint log-likelihood of the freshly updated state,
`none` standing for a non-finite float.  Per iteration the source updates the
state, then (a) breaks without raising when the log-likelihood is non-finite,
(b) breaks when its absolute change from the previous iteration is below the
tolerance, and otherwise records the value and continues; the initial
`loglikelihood_previous = np.inf` is the `none` seed, against which the
difference test never succeeds.  Returns the final state together with the
number of iterations executed. -/
def em_loop {α : Type} (step : α → α) (llOf : α → Option ℚ) :
    ℕ → α → Option ℚ → α × ℕ
  | 0, w, _ => (w, 0)
  | fuel + 1, w, prev =>
    let w1 := step w
    match llOf w1 with
    | none => (w1, 1)
    | some v =>
      match prev with
      | some pv =>
        if |v - pv| < EM_CONV_LIKELIHOOD then (w1, 1)
        else
          let r := em_loop step llOf fuel w1 (some v)
          (r.1, r.2 + 1)
      | none =>
        let r := em_loop step llOf fuel w1 (some v)
        (r.1, r.2 + 1)

/-- The EM parameter state: weight-prior mean and weight-prior covariance
(the noise precision is folded into the abstract step). -/
abbrev EMParam : Type := (ℕ → ℚ) × (ℕ → ℕ → ℚ)

/-- Matrix-vector product `H · v` with inner dimension `m`. -/
def matVec (m : ℕ) (H : ℕ → ℕ → ℚ) (v : ℕ → ℚ) : ℕ → ℚ :=
  fun i => ∑ k ∈ Finset.range m, H i k * v k

/-- The sandwich product `H · S · Hᵀ` with inner dimension `m`. -/
def matSandwich (m : ℕ) (H : ℕ → ℕ → ℚ) (S : ℕ → ℕ → ℚ) : ℕ → ℕ → ℚ :=
  fun i j => ∑ k ∈ Finset.range m, ∑ l ∈ Finset.range m, H i k * S k l * H j l

/-- The final projection of `_model_by_em` (lines 840-847): evaluate the basis
at the output grid (`Hp`, abstract: the basis module is external) and project
the converged weight statistics, `mu_y = Hp·mu_w`, `sig_y = Hp·sig_w·Hpᵀ`. -/
def emProject (m : ℕ) (Hp : ℕ → ℕ → ℚ) (w : EMParam) : EMParam :=
  (matVec m Hp w.1, matSandwich m Hp w.2)

/-- Embedding of `Model._model_by_em`: run the capped EM loop from the initial
state (`mu_w = 0`, `sig_w = I`, seeded previous log-likelihood `np.inf`) and
project the surviving parameters onto the output stations.  Also returns the
number of iterations the loop executed. -/
def model_by_em (step : EMParam → EMParam) (llOf : EMParam → Option ℚ)
    (m : ℕ) (Hp : ℕ → ℕ → ℚ) (w0 : EMParam) : EMParam × ℕ :=
  let r := em_loop step llOf EM_MAX_ITERATIONS w0 none
  (emProject m Hp r.1, r.2)

/-- A grid-axes key: the `xx` and `yy` axis arrays plus the optional `zz`
(absent in 2D - `None` in the source, which compares equal only to `None`).
Cache comparisons in the source are elementwise value comparisons
(`np.all(xx1 == xx)`), embedded as list equality. -/
abbrev GridAxes : Type := List ℚ × List ℚ × Option (List ℚ)

/-- Embedding of the linear cache scan shared by `evalLogLikelihood` and
`isInside_grid`: walk the whole stored list and keep the payload of the last
entry whose key compares equal (the source loop does not break early). -/
def cacheLookup {K V : Type} [DecidableEq K] (cache : List (K × V)) (k : K) :
    Option V :=
  cache.foldl (fun acc e => if e.1 = k then some e.2 else acc) none

/-- The `self._list_logp` cache of a model instance, plus an instrumentation
counter for how many times the parallel per-point evaluation path ran. -/
structure LogpCache : Type where
  list_logp : List (GridAxes × List ℚ)
  ncalls : ℕ
deriving DecidableEq

/-- Embedding of `Model.evalLogLikelihood` (lines 515-555): return a stored
result when some cached key is value-identical, otherwise run the evaluation
pipeline `E` (grid-to-points, parallel per-point log-likelihood,
points-to-grid, NaN patching - abstracted as one function, with the
instrumentation counter recording each run) and append the new entry to the
cache.  The source's `xx.shape == yy.shape` guard is identically satisfied by
the mgrid pairs these axis lists represent - both component arrays have shape
`(len xs, len ys)` - so no error branch is reachable and none is modelled. -/
def evalLogLikelihood (E : GridAxes → List ℚ) (st : LogpCache) (a : GridAxes) :
    List ℚ × LogpCache :=
  match cacheLookup st.list_logp a with
  | some ss => (ss, st)
  | none =>
    let ss := E a
    (ss, ⟨st.list_logp ++ [(a, ss)], st.ncalls + 1⟩)

/-- The `self._list_tube` cache of a model instance: keys also carry the
spread width. -/
structure TubeCache : Type where
  list_tube : List ((ℚ × GridAxes) × List Bool)
  ncalls : ℕ
deriving DecidableEq

/-- Embedding of `Model.isInside_grid` (lines 392-437): identical cache
protocol to `evalLogLikelihood` - including the identically-satisfied mgrid
shape guard, not modelled - with the spread width part of the compared key
and the tube-membership evaluation pipeline abstracted as `E`. -/
def isInside_grid (E : ℚ → GridAxes → List Bool) (st : TubeCache)
    (sdwidth : ℚ) (a : GridAxes) : List Bool × TubeCache :=
  match cacheLookup st.list_tube (sdwidth, a) with
  | some ss => (ss, st)
  | none =>
    let ss := E sdwidth a
    (ss, ⟨st.list_tube ++ [((sdwidth, a), ss)], st.ncalls + 1⟩)

/-- Embedding of `Model._grid2points` in the 2-dimensional branch.  An mgrid
pair is determined by its axis value lists (`xx[ix, 0]` and `yy[0, iy]`); the
nested loops emit one flat point and one multi-index per axis combination. -/
def grid2points2 (xs ys : List ℚ) : List (List ℚ) × List (ℕ × ℕ) :=
  ((List.range xs.length).flatMap (fun ix =>
      (List.range ys.length).map (fun iy => [xs.getD ix 0, ys.getD iy 0])),
   (List.range xs.length).flatMap (fun ix =>
      (List.range ys.length).map (fun iy => (ix, iy))))

/-- Embedding of `Model._grid2points` in the 3-dimensional branch. -/
def grid2points3 (xs ys zs : List ℚ) :
    List (List ℚ) × List (ℕ × ℕ × ℕ) :=
  ((List.range xs.length).flatMap (fun ix =>
      (List.range ys.length).flatMap (fun iy =>
        (List.range zs.length).map (fun iz =>
          [xs.getD ix 0, ys.getD iy 0, zs.getD iz 0]))),
   (List.range xs.length).flatMap (fun ix =>
      (List.range ys.length).flatMap (fun iy =>
        (List.range zs.length).map (fun iz => (ix, iy, iz)))))

/-- A single store `ss[idx] = value` into the scatter target. -/
def updK {K : Type} [DecidableEq K] (g : K → ℚ) (k : K) (v : ℚ) : K → ℚ :=
  fun q => if q = k then v else g q

/-- The scatter loop of `Model._points2grid`: start from `np.zeros(shape)` and
store each value at its recorded multi-index, later stores overwriting
earlier ones. -/
def scatter {K : Type} [DecidableEq K] (pairs : List (K × ℚ)) : K → ℚ :=
  pairs.foldl (fun g e => updK g e.1 e.2) (fun _ => 0)

/-- Embedding of `np.max` over a (nonempty) list of indices; `np.max` raises
on an empty array, so callers guarantee nonemptiness. -/
def listMax (l : List ℕ) : ℕ := l.foldr max 0

/-- Embedding of `Model._points2grid`, 2-dimensional branch: the output shape
is the componentwise maximum index plus one, and the array is the scatter of
the flat values through the index list. -/
def points2grid2 (s : List ℚ) (idx : List (ℕ × ℕ)) :
    (ℕ × ℕ) × ((ℕ × ℕ) → ℚ) :=
  ((listMax (idx.map Prod.fst) + 1, listMax (idx.map Prod.snd) + 1),
   scatter (idx.zip s))

/-- Embedding of `Model._points2grid`, 3-dimensional branch. -/
def points2grid3 (s : List ℚ) (idx : List (ℕ × ℕ × ℕ)) :
    (ℕ × ℕ × ℕ) × ((ℕ × ℕ × ℕ) → ℚ) :=
  ((listMax (idx.map (fun p => p.1)) + 1,
    listMax (idx.map (fun p => p.2.1)) + 1,
    listMax (idx.map (fun p => p.2.2)) + 1),
   scatter (idx.zip s))

/-- Embedding of `Model.getSamples` (lines 121-151).  The numpy global RNG is
explicit state: `seedFn` maps a seed to an RNG state (`np.random.seed`),
`draw` produces one standard-normal vector and the successor state.  The
matrix square root `var_y = U·sqrt(S)` of the joint covariance comes from the
external SVD and is a parameter.  The call seeds the RNG with the constant 10,
discarding the incoming state `rng`, then draws `nsamples` perturbation
vectors, each sample being `mu_y + var_y · vec` reshaped to station rows over
the uniform progress axis. -/
def getSamples {RNG : Type} (seedFn : ℕ → RNG) (draw : RNG → (ℕ → ℚ) × RNG)
    (ndim : ℕ) (mu_y : List ℚ) (var_y : ℕ → ℕ → ℚ) (nsamples : ℕ)
    (rng : RNG) : List (List ℚ × (ℕ → ℕ → ℚ)) × RNG :=
  let m := mu_y.length
  let npoints := m / ndim
  let xp := linspace 0 1 npoints
  (List.range nsamples).foldl
    (fun acc _ =>
      let vg := draw acc.2
      let yp : ℕ → ℚ := fun i =>
        mu_y.getD i 0 + ∑ k ∈ Finset.range m, var_y i k * vg.1 k
      let Yp : ℕ → ℕ → ℚ := fun p d => yp (p + d * npoints)
      (acc.1 ++ [(xp, Yp)], vg.2))
    ([], seedFn 10)

/-- The data of one station cell as the tube geometry consumes it: the centre
`c` and the SVD output of its (repaired) covariance - singular values `s` and
rotation matrix `R` (`[_, s, rotation] = svd(A)` in `_getEllipse`).  The SVD
itself is an external numeric routine, so the decomposition is carried as
data.  Geometry lives over `ℝ` because the sample points involve `sqrt`, `cos`
and `sin`. -/
structure StationGeom (D : ℕ) : Type where
  c : Fin D → ℝ
  s : Fin D → ℝ
  R : Fin D → Fin D → ℝ

instance (D : ℕ) : Inhabited (StationGeom D) :=
  ⟨⟨fun _ => 0, fun _ => 0, fun _ _ => 0⟩⟩

/-- The parameter sample `np.linspace(0, 2*pi, n)` at position `k`. -/
noncomputable def uSample (n k : ℕ) : ℝ := 2 * Real.pi * k / ((n : ℝ) - 1)

/-- The parameter sample `np.linspace(0, pi, n)` at position `k`. -/
noncomputable def vSample (n k : ℕ) : ℝ := Real.pi * k / ((n : ℝ) - 1)

/-- The direction (before the spread-width scaling) of a 2-dimensional
ellipse sample point: `(sqrt(s0)*cos u, sqrt(s1)*sin u)` rotated by `Rᵀ`
(row-vector convention of `_getEllipse`, `ellipse * rotation.transpose()`).
The radii of the source are `sdwidth * sqrt(s)`, so the spread width is the
scalar factor applied in `epoint2`. -/
noncomputable def edir2 (g : StationGeom 2) (u : ℝ) (j : Fin 2) : ℝ :=
  Real.sqrt (g.s 0) * Real.cos u * g.R j 0 +
    Real.sqrt (g.s 1) * Real.sin u * g.R j 1

/-- A 2-dimensional ellipse sample point at spread width `w`. -/
noncomputable def epoint2 (g : StationGeom 2) (w u : ℝ) : Fin 2 → ℝ :=
  fun j => g.c j + w * edir2 g u j

/-- Embedding of `Model._getEllipse`, 2-dimensional branch: the set of the
`n` sample points (as a set - `helpers.unique_rows` de-duplication is a
set-level identity). -/
noncomputable def getEllipse2 (g : StationGeom 2) (w : ℝ) (n : ℕ) :
    Set (Fin 2 → ℝ) :=
  Set.range (fun k : Fin n => epoint2 g w (uSample n (k : ℕ)))

/-- The direction of a 3-dimensional ellipsoid sample point
(`_getEllipse`, 3-dimensional branch): sphere samples
`(cos u sin v, sin u sin v, cos v)` scaled per axis by `sqrt(s)` and rotated
by `Rᵀ`. -/
noncomputable def edir3 (g : StationGeom 3) (u v : ℝ) (j : Fin 3) : ℝ :=
  Real.sqrt (g.s 0) * (Real.cos u * Real.sin v) * g.R j 0 +
    Real.sqrt (g.s 1) * (Real.sin u * Real.sin v) * g.R j 1 +
    Real.sqrt (g.s 2) * Real.cos v * g.R j 2

/-- A 3-dimensional ellipsoid sample point at spread width `w`. -/
noncomputable def epoint3 (g : StationGeom 3) (w u v : ℝ) : Fin 3 → ℝ :=
  fun j => g.c j + w * edir3 g u v j

/-- Embedding of `Model._getEllipse`, 3-dimensional branch: the set of the
`n × n` sphere sample points. -/
noncomputable def getEllipse3 (g : StationGeom 3) (w : ℝ) (n : ℕ) :
    Set (Fin 3 → ℝ) :=
  Set.range (fun kk : Fin n × Fin n =>
    epoint3 g w (uSample n (kk.1 : ℕ)) (vSample n (kk.2 : ℕ)))

/-- Embedding of one segment cloud of `Model._get_point_cloud`: the
de-duplicated union of the sample clouds of stations `i` and `i + 1`. -/
noncomputable def segmentCloud2 (stations : List (StationGeom 2)) (w : ℝ)
    (n i : ℕ) : Set (Fin 2 → ℝ) :=
  getEllipse2 (stations.getD i default) w n ∪
    getEllipse2 (stations.getD (i + 1) default) w n

/-- Embedding of one segment cloud, 3-dimensional branch. -/
noncomputable def segmentCloud3 (stations : List (StationGeom 3)) (w : ℝ)
    (n i : ℕ) : Set (Fin 3 → ℝ) :=
  getEllipse3 (stations.getD i default) w n ∪
    getEllipse3 (stations.getD (i + 1) default) w n

/-- Modelled from the spec: `inHull(query_points, hull_points)` is the
convex-hull containment collaborator from the missing `teetool.helpers`
module - "per-point containment test against the convex hull of
`hull_points`". -/
def in_hull {D : ℕ} (p : Fin D → ℝ) (cloud : Set (Fin D → ℝ)) : Prop :=
  p ∈ convexHull ℝ cloud

/-- Embedding of `Model.isInside_pnts`, 2-dimensional branch: a query point is
inside the tube iff it passes the hull test of some adjacent-station segment
cloud (the source ORs the per-segment boolean columns).  `n` is the
`nsamples` per ellipse (the grid path always passes 12). -/
noncomputable def isInside_pnts2 (stations : List (StationGeom 2)) (w : ℝ)
    (n : ℕ) (p : Fin 2 → ℝ) : Prop :=
  ∃ i, i + 1 < stations.length ∧ in_hull p (segmentCloud2 stations w n i)

/-- Embedding of `Model.isInside_pnts`, 3-dimensional branch. -/
noncomputable def isInside_pnts3 (stations : List (StationGeom 3)) (w : ℝ)
    (n : ℕ) (p : Fin 3 → ℝ) : Prop :=
  ∃ i, i + 1 < stations.length ∧ in_hull p (segmentCloud3 stations w n i)

/-- A two-point, two-trajectory-sample cluster used to instantiate theorems on
concrete inputs. -/
def exampleCluster : List Traj := [([0, 1], [[0, 0], [1, 1]])]

/-- A cluster whose progress values are not yet on the `[0, 1]` domain. -/
def exampleClusterWide : List Traj := [([0, 2], [[0, 0], [1, 1]])]

/-- A trivial stand-in for the (external) ML/EM fitters, used when a concrete
instantiation only exercises the resampling branch. -/
def zeroFit : List Traj → ℕ → SVal → Option SVal → (ℕ → ℚ) × (ℕ → ℕ → ℚ) :=
  fun _ _ _ _ => (fun _ => 0, fun _ _ => 0)

/-- A resampling settings dictionary with the given `ngaus` entry. -/
def settingsNgaus (k : ℤ) : Settings :=
  ⟨some (SVal.str "resampling"), some (SVal.int k), none, none⟩

/-- A concrete EM step (identity) for instantiating the loop theorems. -/
def emStep0 : EMParam → EMParam := fun w => w

/-- A concrete log-likelihood evaluation that is immediately non-finite. -/
def emLl0 : EMParam → Option ℚ := fun _ => none

/-- A concrete EM initial state. -/
def emW0 : EMParam := (fun _ => 0, fun _ _ => 0)

/-- A concrete grid-axes key for cache theorems. -/
def axes0 : GridAxes := ([0], [1], none)

/-- A second, value-different grid-axes key. -/
def axes1 : GridAxes := ([0], [2], none)

/-- A concrete log-likelihood evaluation pipeline for cache theorems. -/
def evalE0 : GridAxes → List ℚ := fun _ => [7]

/-- A concrete tube-membership evaluation pipeline for cache theorems. -/
def evalF0 : ℚ → GridAxes → List Bool := fun _ _ => [true]

/-- A concrete station whose covariance SVD is the identity rotation with unit
singular values, centred at the origin. -/
noncomputable def cexStation : StationGeom 2 :=
  ⟨fun _ => 0, fun _ => 1, fun i j => if i = j then 1 else 0⟩

/-- A two-station 2-dimensional model for the tube counterexample. -/
noncomputable def cexModel : List (StationGeom 2) := [cexStation, cexStation]

/-- A degenerate two-station 3-dimensional model. -/
noncomputable def cexModel3 : List (StationGeom 3) := [default, default]

/-- The query point `(-1, 0)`: an ellipse sample point of `cexStation` at
spread width `-1`. -/
noncomputable def cexP : Fin 2 → ℝ := fun j => if j = 0 then -1 else 0

theorem foldl_replicate_add {β : Type} (f : β → ℚ) (y : β) :
    ∀ (N : ℕ) (a : ℚ),
      (List.replicate N y).foldl (fun acc x => acc + f x) a = a + N * f y := by
  intro N
  induction N with
  | zero => intro a; simp
  | succ n ih =>
    intro a
    rw [List.replicate_succ, List.foldl_cons, ih]
    push_cast
    ring

theorem resampling_replicate_mu (ngaus N : ℕ) (tr : Traj) (hN : 1 ≤ N)
    (i : ℕ) :
    (model_by_resampling ngaus (List.replicate N tr)).1 i
      = resampleTraj ngaus tr i := by
  have hN0 : (N : ℚ) ≠ 0 := Nat.cast_ne_zero.mpr (by omega)
  simp only [model_by_resampling, List.map_replicate, List.length_replicate]
  rw [foldl_replicate_add (fun yn => yn i) (resampleTraj ngaus tr) N 0]
  field_simp

/-- C5: a resampling fit over `N ≥ 1` copies of one trajectory returns as mean
exactly that trajectory resampled onto the uniform `ngaus`-point grid (stacked
station-then-dimension), and an identically zero covariance matrix. -/
theorem resampling_identical_trajectories (ngaus N : ℕ) (tr : Traj)
    (hN : 1 ≤ N) :
    (∀ i, (model_by_resampling ngaus (List.replicate N tr)).1 i
        = resampleTraj ngaus tr i) ∧
    (∀ i j, (model_by_resampling ngaus (List.replicate N tr)).2 i j = 0) := by
  have hN0 : (N : ℚ) ≠ 0 := Nat.cast_ne_zero.mpr (by omega)
  refine ⟨resampling_replicate_mu ngaus N tr hN, ?_⟩
  intro i j
  have hmu_i := resampling_replicate_mu ngaus N tr hN i
  have hmu_j := resampling_replicate_mu ngaus N tr hN j
  simp only [model_by_resampling, List.map_replicate, List.length_replicate]
    at hmu_i hmu_j ⊢
  rw [hmu_i, hmu_j,
      foldl_replicate_add
        (fun yn => (yn i - resampleTraj ngaus tr i)
          * (yn j - resampleTraj ngaus tr j))
        (resampleTraj ngaus tr) N 0]
  simp

/-- Concrete instantiation of `resampling_identical_trajectories`. -/
theorem resampling_identical_trajectories_witness :
    1 ≤ 2 ∧
      (model_by_resampling 3 (List.replicate 2 ([0, 1], [[0, 0], [1, 1]]))).2
        4 4 = 0 :=
  ⟨by decide,
   (resampling_identical_trajectories 3 2 ([0, 1], [[0, 0], [1, 1]])
     (by decide)).2 4 4⟩

/-- C2 (amended): the mean query returns exactly `S` points; each point is a
row of three coordinates whose first `D` entries are the station-major reshape
of the stored joint mean (`mu_y[s + d*S]`), the third being zero-filled in the
two-dimensional case.  (The original claim - each point has exactly `D`
coordinates - fails for `D = 2`, see `getMean_coords_counterexample`.) -/
theorem getMean_points (ndim S : ℕ) (mu_y : List ℚ)
    (hdim : ndim = 2 ∨ ndim = 3) (hlen : mu_y.length = ndim * S) :
    (getMean ndim mu_y).length = S ∧
    ∀ s, s < S → (getMean ndim mu_y).getD s []
      = [reshapeF S mu_y s 0, reshapeF S mu_y s 1,
         if ndim = 2 then 0 else reshapeF S mu_y s 2] := by
  have hnd0 : 0 < ndim := by rcases hdim with h | h <;> omega
  have hS : mu_y.length / ndim = S := by
    rw [hlen]; exact Nat.mul_div_cancel_left S hnd0
  constructor
  · simp [getMean, hS]
  · intro s hs
    simp only [getMean, hS]
    rw [List.getD_eq_getElem?_getD, List.getElem?_map, List.getElem?_range hs]
    simp

/-- C2, counterexample to the original claim: with `D = 2` and one station
(`mu_y = [1, 2]`), the returned point is `[1, 2, 0]` - three coordinates, not
`D = 2`. -/
theorem getMean_coords_counterexample :
    ¬ ∀ p ∈ getMean 2 [1, 2], p.length = 2 := by decide

/-- Concrete instantiation of `getMean_points`. -/
theorem getMean_points_witness :
    ((3 : ℕ) = 2 ∨ (3 : ℕ) = 3) ∧ ([(1 : ℚ), 2, 3].length = 3 * 1) ∧
      (getMean 3 [1, 2, 3]).length = 1 :=
  ⟨Or.inr rfl, by decide,
   (getMean_points 3 1 [1, 2, 3] (Or.inr rfl) (by decide)).1⟩

/-- C3 (amended): construction rejects a missing or non-`int` `ngaus` entry
before any fitting, but positivity is never validated - every integer value,
including zero and negatives, passes settings validation; a negative value
fails only later, inside the resampling fit, when `np.linspace` rejects the
negative grid size.  (A zero `ngaus` constructs successfully, see
`modelInit_ngaus_zero_counterexample`.) -/
theorem modelInit_ngaus_validation (st : Settings) (k : ℤ) :
    (st.ngaus = none → ∃ e, validateSettings st = Except.error e) ∧
    (∀ v, st.ngaus = some v → (∀ z : ℤ, v ≠ SVal.int z) →
      ∃ e, validateSettings st = Except.error e) ∧
    (st.model_type = some (SVal.str "resampling") →
      st.ngaus = some (SVal.int k) → validateSettings st = Except.ok ()) ∧
    (modelInit id zeroFit zeroFit exampleCluster (settingsNgaus (-1))).isOk
      = false := by
  obtain ⟨mt, ng, bt, nb⟩ := st
  refine ⟨?_, ?_, ?_, ?_⟩
  · rintro rfl
    rcases mt with _ | v
    · exact ⟨_, rfl⟩
    · rcases v with s | z | _ <;> exact ⟨_, rfl⟩
  · rintro v rfl hv
    rcases v with s | z | _
    · rcases mt with _ | v1
      · exact ⟨_, rfl⟩
      · rcases v1 with s1 | z1 | _ <;> exact ⟨_, rfl⟩
    · exact absurd rfl (hv z)
    · rcases mt with _ | v1
      · exact ⟨_, rfl⟩
      · rcases v1 with s1 | z1 | _ <;> exact ⟨_, rfl⟩
  · rintro rfl rfl
    simp only [validateSettings]
    rw [if_neg (by decide)]
  · rfl

/-- C3, counterexample to the original claim: `ngaus = 0` is not a positive
integer, yet construction (resampling model type) succeeds - validation only
checks presence and `int`-ness. -/
theorem modelInit_ngaus_zero_counterexample :
    (modelInit id zeroFit zeroFit exampleCluster (settingsNgaus 0)).isOk
      = true := by rfl

/-- Concrete instantiation of `modelInit_ngaus_validation`. -/
theorem modelInit_ngaus_validation_witness :
    (∃ e, validateSettings ⟨some (SVal.str "resampling"), none, none, none⟩
        = Except.error e) ∧
    validateSettings (settingsNgaus (-5)) = Except.ok () :=
  ⟨(modelInit_ngaus_validation
      ⟨some (SVal.str "resampling"), none, none, none⟩ 0).1 rfl,
   (modelInit_ngaus_validation (settingsNgaus (-5)) (-5)).2.2.1 rfl rfl⟩

theorem foldl_min_const (c : ℚ) :
    ∀ (ts : List ℚ), (∀ t ∈ ts, t = c) → ts.foldl min c = c := by
  intro ts
  induction ts with
  | nil => intro _; rfl
  | cons a ts ih =>
    intro h
    rw [List.foldl_cons, h a (by simp), min_self]
    exact ih (fun t ht => h t (by simp [ht]))

theorem foldl_max_const (c : ℚ) :
    ∀ (ts : List ℚ), (∀ t ∈ ts, t = c) → ts.foldl max c = c := by
  intro ts
  induction ts with
  | nil => intro _; rfl
  | cons a ts ih =>
    intro h
    rw [List.foldl_cons, h a (by simp), max_self]
    exact ih (fun t ht => h t (by simp [ht]))

theorem aMin_const (l : List ℚ) (c : ℚ) (hl : l ≠ []) (h : ∀ t ∈ l, t = c) :
    aMin l = c := by
  rcases l with _ | ⟨a, ts⟩
  · exact absurd rfl hl
  · have ha : a = c := h a (by simp)
    simp only [aMin, List.headD, ha]
    rw [List.foldl_cons, min_self]
    exact foldl_min_const c ts (fun t ht => h t (by simp [ht]))

theorem aMax_const (l : List ℚ) (c : ℚ) (hl : l ≠ []) (h : ∀ t ∈ l, t = c) :
    aMax l = c := by
  rcases l with _ | ⟨a, ts⟩
  · exact absurd rfl hl
  · have ha : a = c := h a (by simp)
    simp only [aMax, List.headD, ha]
    rw [List.foldl_cons, max_self]
    exact foldl_max_const c ts (fun t ht => h t (by simp [ht]))

theorem foldl_mmStep_const (c : ℚ) :
    ∀ (rest : List Traj), (∀ tr ∈ rest, aMin tr.1 = c ∧ aMax tr.1 = c) →
      rest.foldl mmStep (some c, some c) = (some c, some c) := by
  intro rest
  induction rest with
  | nil => intro _; rfl
  | cons tr rest ih =>
    intro h
    rw [List.foldl_cons]
    have h1 := (h tr (by simp)).1
    have h2 := (h tr (by simp)).2
    have hstep : mmStep (some c, some c) tr = (some c, some c) := by
      simp [mmStep, h1, h2]
    rw [hstep]
    exact ih (fun tr1 ht => h tr1 (by simp [ht]))

/-- C10: the normalisation divisor `xmax - xmin` is nonzero exactly under the
unstated precondition that the global progress minimum is strictly below the
global maximum; a nonempty cluster whose progress values are all equal to one
constant `c` makes `_getMinMax` return `(c, c)`, so `_getNorm` divides by
zero - there is no guard and no declared error in that code path. -/
theorem getNorm_divisor_precondition (cluster : List Traj) (c : ℚ) :
    (∀ a b : ℚ, getMinMax cluster = (some a, some b) → a < b → b - a ≠ 0) ∧
    (cluster ≠ [] → (∀ tr ∈ cluster, tr.1 ≠ []) →
     (∀ tr ∈ cluster, ∀ t ∈ tr.1, t = c) →
      getMinMax cluster = (some c, some c) ∧
      ∀ x : List ℚ, getNorm x (c, c) = x.map (fun t => (t - c) / 0)) := by
  constructor
  · intro a b _ hab
    exact sub_ne_zero_of_ne (ne_of_gt hab)
  · intro hne hx hc
    have hmm : getMinMax cluster = (some c, some c) := by
      rcases cluster with _ | ⟨tr, rest⟩
      · exact absurd rfl hne
      · have h1 : aMin tr.1 = c :=
          aMin_const tr.1 c (hx tr (by simp)) (hc tr (by simp))
        have h2 : aMax tr.1 = c :=
          aMax_const tr.1 c (hx tr (by simp)) (hc tr (by simp))
        have hfirst : mmStep (none, none) tr = (some c, some c) := by
          simp [mmStep, h1, h2]
        rw [getMinMax, List.foldl_cons, hfirst]
        exact foldl_mmStep_const c rest (fun tr1 ht =>
          ⟨aMin_const tr1.1 c (hx tr1 (by simp [ht])) (hc tr1 (by simp [ht])),
           aMax_const tr1.1 c (hx tr1 (by simp [ht])) (hc tr1 (by simp [ht]))⟩)
    refine ⟨hmm, ?_⟩
    intro x
    simp [getNorm, sub_self]

/-- Concrete instantiation of `getNorm_divisor_precondition`: a one-trajectory
cluster with constant progress `[1, 1]` reaches the zero divisor. -/
theorem getNorm_divisor_precondition_witness :
    getMinMax [([1, 1], [[0], [0]])] = (some 1, some 1) ∧
      getNorm [1, 1] (1, 1) = [(1 - 1) / 0, (1 - 1) / 0] :=
  ⟨((getNorm_divisor_precondition [([1, 1], [[0], [0]])] 1).2 (by decide)
      (by decide) (by decide)).1,
   by
    have h := ((getNorm_divisor_precondition [([1, 1], [[0], [0]])] 1).2
      (by decide) (by decide) (by decide)).2 [1, 1]
    simpa using h⟩

/-- C4 (amended): the progress normalisation is applied in place to the very
list the caller passed in, so after a successful construction the caller's
cluster data holds the normalised progress arrays (the position matrices are
untouched) - it is not a private copy.  The second component returned by
`modelInit` is the content of the caller's list after the call. -/
theorem modelInit_normalises_in_place
    (nspd : (ℕ → ℕ → ℚ) → (ℕ → ℕ → ℚ))
    (fML fEM : List Traj → ℕ → SVal → Option SVal → (ℕ → ℚ) × (ℕ → ℕ → ℚ))
    (cluster : List Traj) (st : Settings) (m : Model) (cd' : List Traj)
    (h : modelInit nspd fML fEM cluster st = Except.ok (m, cd')) :
    cd' = normalise_data cluster ∧
    cd'.map Prod.snd = cluster.map Prod.snd ∧
    cd' = cluster.map (fun tr =>
      (getNorm tr.1 (((getMinMax cluster).1).getD 0,
                     ((getMinMax cluster).2).getD 0), tr.2)) := by
  have hcd : cd' = normalise_data cluster := by
    simp only [modelInit] at h
    split at h
    · exact (Except.noConfusion h)
    · split at h
      · split at h
        · exact (Except.noConfusion h)
        · simp only [Except.ok.injEq, Prod.mk.injEq] at h
          exact h.2.symm
      · exact (Except.noConfusion h)
  subst hcd
  refine ⟨rfl, by simp [normalise_data], rfl⟩

/-- C4, counterexample to the original claim: constructing a resampling model
from a cluster whose progress runs over `[0, 2]` leaves the caller's list
changed - its progress array has been rescaled to `[0, 1]`. -/
theorem modelInit_caller_data_counterexample :
    ∃ m cd',
      modelInit id zeroFit zeroFit exampleClusterWide (settingsNgaus 2)
          = Except.ok (m, cd') ∧
        cd' ≠ exampleClusterWide := by
  refine ⟨_, _, rfl, ?_⟩
  simp [normalise_data, getNorm, getMinMax, mmStep, aMin, aMax,
    exampleClusterWide]

/-- Concrete instantiation of `modelInit_normalises_in_place`. -/
theorem modelInit_normalises_in_place_witness :
    ∃ m cd',
      modelInit id zeroFit zeroFit exampleCluster (settingsNgaus 1)
          = Except.ok (m, cd') ∧
        cd' = normalise_data exampleCluster := by
  refine ⟨_, _, rfl, ?_⟩
  exact (modelInit_normalises_in_place id zeroFit zeroFit exampleCluster
    (settingsNgaus 1) _ _ rfl).1

theorem em_loop_count_le {α : Type} (step : α → α) (llOf : α → Option ℚ) :
    ∀ (fuel : ℕ) (w : α) (prev : Option ℚ),
      (em_loop step llOf fuel w prev).2 ≤ fuel := by
  intro fuel
  induction fuel with
  | zero => intro w prev; simp [em_loop]
  | succ n ih =>
    intro w prev
    rw [em_loop]
    rcases h : llOf (step w) with _ | v
    · simp
    · rcases prev with _ | pv
      · simpa using Nat.succ_le_succ (ih (step w) (some v))
      · by_cases hd : |v - pv| < EM_CONV_LIKELIHOOD
        · simp [hd]
        · simpa [hd] using Nat.succ_le_succ (ih (step w) (some v))

/-- C1: for every EM kernel (one expectation-maximisation pass `step` and
log-likelihood evaluation `llOf`, covering every cluster data and valid EM
settings) the fitting loop executes at most `MAX_ITERATIONS = 2001`
iterations; an iteration whose fresh log-likelihood is finite and within
`1e-3` of the previous one stops the loop at once, as does - without raising
any error, the embedding being a total function - an iteration whose
log-likelihood is non-finite, and the returned pair is the basis projection
of the parameter set left standing at that break (the last set computed
before any non-finite log-likelihood could propagate). -/
theorem model_by_em_convergence (step : EMParam → EMParam)
    (llOf : EMParam → Option ℚ) (m : ℕ) (Hp : ℕ → ℕ → ℚ) (w0 : EMParam) :
    (model_by_em step llOf m Hp w0).2 ≤ EM_MAX_ITERATIONS ∧
    (∀ (fuel : ℕ) (w : EMParam) (prev : Option ℚ), llOf (step w) = none →
      em_loop step llOf (fuel + 1) w prev = (step w, 1)) ∧
    (∀ (fuel : ℕ) (w : EMParam) (pv v : ℚ), llOf (step w) = some v →
      |v - pv| < EM_CONV_LIKELIHOOD →
      em_loop step llOf (fuel + 1) w (some pv) = (step w, 1)) ∧
    (model_by_em step llOf m Hp w0).1
      = emProject m Hp ((em_loop step llOf EM_MAX_ITERATIONS w0 none).1) := by
  refine ⟨em_loop_count_le step llOf EM_MAX_ITERATIONS w0 none, ?_, ?_, rfl⟩
  · intro fuel w prev h
    rw [em_loop, h]
  · intro fuel w pv v h hd
    rw [em_loop, h]
    simp [hd]

/-- Concrete instantiation of `model_by_em_convergence`: with an immediately
non-finite log-likelihood the loop stops after one iteration. -/
theorem model_by_em_convergence_witness :
    (model_by_em emStep0 emLl0 0 (fun _ _ => 0) emW0).2 ≤ EM_MAX_ITERATIONS ∧
      em_loop emStep0 emLl0 1 emW0 none = (emStep0 emW0, 1) :=
  ⟨(model_by_em_convergence emStep0 emLl0 0 (fun _ _ => 0) emW0).1,
   (model_by_em_convergence emStep0 emLl0 0 (fun _ _ => 0) emW0).2.1
     0 emW0 none rfl⟩

theorem cacheLookup_append_self {K V : Type} [DecidableEq K]
    (c : List (K × V)) (k : K) (v : V) :
    cacheLookup (c ++ [(k, v)]) k = some v := by
  simp [cacheLookup, List.foldl_append]

theorem cacheLookup_single_ne {K V : Type} [DecidableEq K]
    (k b : K) (v : V) (hb : b ≠ k) :
    cacheLookup [(k, v)] b = none := by
  simp [cacheLookup]
  intro h
  exact absurd h.symm hb

/-- C7: both cached queries return a stored result - with the cache state and
the evaluation-count instrumentation untouched - whenever some cache entry's
key (axis arrays, and spread width for the tube query) is value-identical to
the current one; a lookup miss runs the evaluation pipeline once and appends
one entry, after which the same key is a hit, while any value-different key
misses; the cache only ever grows by appended entries (no eviction, no
overwrite). -/
theorem cache_hit_miss (E : GridAxes → List ℚ) (F : ℚ → GridAxes → List Bool)
    (st : LogpCache) (ts : TubeCache) (a : GridAxes) (sw : ℚ) :
    ((∀ ss, cacheLookup st.list_logp a = some ss →
        evalLogLikelihood E st a = (ss, st)) ∧
      (cacheLookup st.list_logp a = none →
        evalLogLikelihood E st a
          = (E a, ⟨st.list_logp ++ [(a, E a)], st.ncalls + 1⟩)) ∧
      (∀ r st1, evalLogLikelihood E st a = (r, st1) →
        ∃ t, st1.list_logp = st.list_logp ++ t) ∧
      cacheLookup (st.list_logp ++ [(a, E a)]) a = some (E a) ∧
      (∀ b : GridAxes, b ≠ a → cacheLookup [(a, E a)] b = none)) ∧
    ((∀ ss, cacheLookup ts.list_tube (sw, a) = some ss →
        isInside_grid F ts sw a = (ss, ts)) ∧
      (cacheLookup ts.list_tube (sw, a) = none →
        isInside_grid F ts sw a
          = (F sw a, ⟨ts.list_tube ++ [((sw, a), F sw a)], ts.ncalls + 1⟩)) ∧
      (∀ r ts1, isInside_grid F ts sw a = (r, ts1) →
        ∃ t, ts1.list_tube = ts.list_tube ++ t) ∧
      cacheLookup (ts.list_tube ++ [((sw, a), F sw a)]) (sw, a)
        = some (F sw a) ∧
      (∀ b : ℚ × GridAxes, b ≠ (sw, a) →
        cacheLookup [((sw, a), F sw a)] b = none)) := by
  constructor
  · refine ⟨?_, ?_, ?_, cacheLookup_append_self _ _ _,
      fun b hb => cacheLookup_single_ne _ _ _ hb⟩
    · intro ss h
      simp [evalLogLikelihood, h]
    · intro h
      simp [evalLogLikelihood, h]
    · intro r st1 h
      simp only [evalLogLikelihood] at h
      rcases hl : cacheLookup st.list_logp a with _ | ss
      · rw [hl] at h
        simp only [Prod.mk.injEq] at h
        exact ⟨[(a, E a)], by rw [← h.2]⟩
      · rw [hl] at h
        simp only [Prod.mk.injEq] at h
        exact ⟨[], by rw [← h.2, List.append_nil]⟩
  · refine ⟨?_, ?_, ?_, cacheLookup_append_self _ _ _,
      fun b hb => cacheLookup_single_ne _ _ _ hb⟩
    · intro ss h
      simp [isInside_grid, h]
    · intro h
      simp [isInside_grid, h]
    · intro r ts1 h
      simp only [isInside_grid] at h
      rcases hl : cacheLookup ts.list_tube (sw, a) with _ | ss
      · rw [hl] at h
        simp only [Prod.mk.injEq] at h
        exact ⟨[((sw, a), F sw a)], by rw [← h.2]⟩
      · rw [hl] at h
        simp only [Prod.mk.injEq] at h
        exact ⟨[], by rw [← h.2, List.append_nil]⟩

/-- Concrete instantiation of `cache_hit_miss`: a miss on the empty cache
computes and appends; the appended key then hits while a value-different key
still misses. -/
theorem cache_hit_miss_witness :
    evalLogLikelihood evalE0 ⟨[], 0⟩ axes0
        = (evalE0 axes0, ⟨[(axes0, evalE0 axes0)], 1⟩) ∧
      cacheLookup [(axes0, evalE0 axes0)] axes0 = some (evalE0 axes0) ∧
      cacheLookup [(axes0, evalE0 axes0)] axes1 = none :=
  ⟨by
    simpa using
      (cache_hit_miss evalE0 evalF0 ⟨[], 0⟩ ⟨[], 0⟩ axes0 0).1.2.1 rfl,
   by
    simpa using
      (cache_hit_miss evalE0 evalF0 ⟨[], 0⟩ ⟨[], 0⟩ axes0 0).1.2.2.2.1,
   (cache_hit_miss evalE0 evalF0 ⟨[], 0⟩ ⟨[], 0⟩ axes0 0).1.2.2.2.2
     axes1 (by decide)⟩

/-- C9: `getSamples` re-seeds the global RNG with the constant 10 before
drawing, so its output (the progress axis and all position matrices) is a
function of the model state and the requested count alone - two calls on the
same instance return identical output whatever the RNG state has become in
between (here: for any two incoming RNG states). -/
theorem getSamples_reproducible {RNG : Type} (seedFn : ℕ → RNG)
    (draw : RNG → (ℕ → ℚ) × RNG) (ndim : ℕ) (mu_y : List ℚ)
    (var_y : ℕ → ℕ → ℚ) (nsamples : ℕ) (g1 g2 : RNG) :
    (getSamples seedFn draw ndim mu_y var_y nsamples g1).1
      = (getSamples seedFn draw ndim mu_y var_y nsamples g2).1 := rfl

theorem zip_self_map {α β : Type} (l : List α) (f : α → β) :
    l.zip (l.map f) = l.map (fun a => (a, f a)) := by
  induction l with
  | nil => rfl
  | cons a l ih => simp [ih]

theorem scatter_foldl_eval {K : Type} [DecidableEq K] :
    ∀ (L : List (K × ℚ)) (g0 : K → ℚ) (k : K),
      (L.foldl (fun g e => updK g e.1 e.2) g0) k
        = ((L.reverse.find? (fun e => decide (e.1 = k))).map Prod.snd).getD
            (g0 k) := by
  intro L
  induction L with
  | nil => intro g0 k; simp
  | cons e L ih =>
    intro g0 k
    rw [List.foldl_cons, ih, List.reverse_cons, List.find?_append]
    rcases hf : L.reverse.find? (fun e => decide (e.1 = k)) with _ | e1
    · rw [hf]
      by_cases he : e.1 = k
      · simp [List.find?_cons, he, updK]
      · have hk : ¬ (k = e.1) := fun h => he h.symm
        simp [List.find?_cons, he, updK, hk]
    · rw [hf]
      simp

theorem find?_map_key {K : Type} [DecidableEq K] (idx : List K) (f : K → ℚ)
    (k : K) (hk : k ∈ idx) :
    ((idx.map (fun p => (p, f p))).reverse.find?
        (fun e => decide (e.1 = k))) = some (k, f k) := by
  rcases hf : ((idx.map (fun p => (p, f p))).reverse.find?
      (fun e => decide (e.1 = k))) with _ | e
  · exfalso
    rw [List.find?_eq_none] at hf
    refine (by simpa using hf (k, f k) ?_)
    rw [List.mem_reverse, List.mem_map]
    exact ⟨k, hk, rfl⟩
  · have hp := List.find?_some hf
    have hm := List.mem_of_find?_eq_some hf
    rw [List.mem_reverse, List.mem_map] at hm
    obtain ⟨q, hq, rfl⟩ := hm
    have hqk : q = k := by simpa using hp
    subst hqk
    exact hf

theorem le_listMax (l : List ℕ) (x : ℕ) (h : x ∈ l) : x ≤ listMax l := by
  induction l with
  | nil => cases h
  | cons a l ih =>
    rcases List.mem_cons.mp h with rfl | hm
    · exact le_max_left _ _
    · exact le_trans (ih hm) (le_max_right _ _)

theorem listMax_le (l : List ℕ) (m : ℕ) (h : ∀ x ∈ l, x ≤ m) :
    listMax l ≤ m := by
  induction l with
  | nil => exact Nat.zero_le m
  | cons a l ih =>
    exact max_le (h a (by simp)) (ih (fun x hx => h x (by simp [hx])))

theorem listMax_eq (l : List ℕ) (m : ℕ) (hm : m ∈ l)
    (hb : ∀ x ∈ l, x ≤ m) : listMax l = m :=
  le_antisymm (listMax_le l m hb) (le_listMax l m hm)

theorem mem_grid2points2_idx (xs ys : List ℚ) (p : ℕ × ℕ) :
    p ∈ (grid2points2 xs ys).2 ↔ p.1 < xs.length ∧ p.2 < ys.length := by
  rcases p with ⟨i, j⟩
  simp only [grid2points2, List.mem_flatMap, List.mem_map, List.mem_range,
    Prod.mk.injEq]
  constructor
  · rintro ⟨a, ha, b, hb, rfl, rfl⟩
    exact ⟨ha, hb⟩
  · rintro ⟨hi, hj⟩
    exact ⟨i, hi, j, hj, rfl, rfl⟩

theorem mem_grid2points3_idx (xs ys zs : List ℚ) (p : ℕ × ℕ × ℕ) :
    p ∈ (grid2points3 xs ys zs).2
      ↔ p.1 < xs.length ∧ p.2.1 < ys.length ∧ p.2.2 < zs.length := by
  rcases p with ⟨i, j, k⟩
  simp only [grid2points3, List.mem_flatMap, List.mem_map, List.mem_range,
    Prod.mk.injEq]
  constructor
  · rintro ⟨a, ha, b, hb, c, hc, rfl, rfl, rfl⟩
    exact ⟨ha, hb, hc⟩
  · rintro ⟨hi, hj, hk⟩
    exact ⟨i, hi, j, hj, k, hk, rfl, rfl, rfl⟩

/-- C6: scattering the flattened per-point values of a structured 2D or 3D
grid back through the recorded index list reconstructs the grid exactly -
`pointsToGrid ∘ gridToPoints` is the identity on grid-shaped value arrays,
the output being shaped to the maximum recorded index plus one per axis
(which equals the axis lengths). -/
theorem points2grid_roundtrip (xs ys zs : List ℚ)
    (f2 : ℕ × ℕ → ℚ) (f3 : ℕ × ℕ × ℕ → ℚ)
    (hx : xs ≠ []) (hy : ys ≠ []) (hz : zs ≠ []) :
    ((points2grid2 ((grid2points2 xs ys).2.map f2)
          (grid2points2 xs ys).2).1 = (xs.length, ys.length) ∧
      ∀ p : ℕ × ℕ, p.1 < xs.length → p.2 < ys.length →
        (points2grid2 ((grid2points2 xs ys).2.map f2)
            (grid2points2 xs ys).2).2 p = f2 p) ∧
    ((points2grid3 ((grid2points3 xs ys zs).2.map f3)
          (grid2points3 xs ys zs).2).1
        = (xs.length, ys.length, zs.length) ∧
      ∀ p : ℕ × ℕ × ℕ,
        p.1 < xs.length → p.2.1 < ys.length → p.2.2 < zs.length →
        (points2grid3 ((grid2points3 xs ys zs).2.map f3)
            (grid2points3 xs ys zs).2).2 p = f3 p) := by
  have hnx : 0 < xs.length := List.length_pos.mpr hx
  have hny : 0 < ys.length := List.length_pos.mpr hy
  have hnz : 0 < zs.length := List.length_pos.mpr hz
  constructor
  · constructor
    · have h1 : listMax ((grid2points2 xs ys).2.map Prod.fst)
          = xs.length - 1 := by
        apply listMax_eq
        · rw [List.mem_map]
          exact ⟨(xs.length - 1, 0),
            (mem_grid2points2_idx xs ys _).mpr ⟨by omega, hny⟩, rfl⟩
        · intro x hx1
          rw [List.mem_map] at hx1
          obtain ⟨p, hp, rfl⟩ := hx1
          have := ((mem_grid2points2_idx xs ys p).mp hp).1
          omega
      have h2 : listMax ((grid2points2 xs ys).2.map Prod.snd)
          = ys.length - 1 := by
        apply listMax_eq
        · rw [List.mem_map]
          exact ⟨(0, ys.length - 1),
            (mem_grid2points2_idx xs ys _).mpr ⟨hnx, by omega⟩, rfl⟩
        · intro x hx1
          rw [List.mem_map] at hx1
          obtain ⟨p, hp, rfl⟩ := hx1
          have := ((mem_grid2points2_idx xs ys p).mp hp).2
          omega
      simp only [points2grid2]
      rw [h1, h2]
      have e1 : xs.length - 1 + 1 = xs.length := by omega
      have e2 : ys.length - 1 + 1 = ys.length := by omega
      rw [e1, e2]
    · intro p hp1 hp2
      simp only [points2grid2]
      rw [zip_self_map]
      simp only [scatter]
      rw [scatter_foldl_eval,
        find?_map_key _ f2 p ((mem_grid2points2_idx xs ys p).mpr ⟨hp1, hp2⟩)]
      rfl
  · constructor
    · have h1 : listMax ((grid2points3 xs ys zs).2.map (fun p => p.1))
          = xs.length - 1 := by
        apply listMax_eq
        · rw [List.mem_map]
          exact ⟨(xs.length - 1, 0, 0),
            (mem_grid2points3_idx xs ys zs _).mpr ⟨by omega, hny, hnz⟩, rfl⟩
        · intro x hx1
          rw [List.mem_map] at hx1
          obtain ⟨p, hp, rfl⟩ := hx1
          have := ((mem_grid2points3_idx xs ys zs p).mp hp).1
          omega
      have h2 : listMax ((grid2points3 xs ys zs).2.map (fun p => p.2.1))
          = ys.length - 1 := by
        apply listMax_eq
        · rw [List.mem_map]
          exact ⟨(0, ys.length - 1, 0),
            (mem_grid2points3_idx xs ys zs _).mpr
              ⟨hnx, by show ys.length - 1 < ys.length; omega, hnz⟩, rfl⟩
        · intro x hx1
          rw [List.mem_map] at hx1
          obtain ⟨p, hp, rfl⟩ := hx1
          have := ((mem_grid2points3_idx xs ys zs p).mp hp).2.1
          omega
      have h3 : listMax ((grid2points3 xs ys zs).2.map (fun p => p.2.2))
          = zs.length - 1 := by
        apply listMax_eq
        · rw [List.mem_map]
          exact ⟨(0, 0, zs.length - 1),
            (mem_grid2points3_idx xs ys zs _).mpr
              ⟨hnx, hny, by show zs.length - 1 < zs.length; omega⟩, rfl⟩
        · intro x hx1
          rw [List.mem_map] at hx1
          obtain ⟨p, hp, rfl⟩ := hx1
          have := ((mem_grid2points3_idx xs ys zs p).mp hp).2.2
          omega
      simp only [points2grid3]
      rw [h1, h2, h3]
      have e1 : xs.length - 1 + 1 = xs.length := by omega
      have e2 : ys.length - 1 + 1 = ys.length := by omega
      have e3 : zs.length - 1 + 1 = zs.length := by omega
      rw [e1, e2, e3]
    · intro p hp1 hp2 hp3
      simp only [points2grid3]
      rw [zip_self_map]
      simp only [scatter]
      rw [scatter_foldl_eval,
        find?_map_key _ f3 p
          ((mem_grid2points3_idx xs ys zs p).mpr ⟨hp1, hp2, hp3⟩)]
      rfl

/-- Concrete instantiation of `points2grid_roundtrip`. -/
theorem points2grid_roundtrip_witness :
    (points2grid2 ((grid2points2 [0] [1]).2.map (fun _ => (5 : ℚ)))
        (grid2points2 [0] [1]).2).1 = (1, 1) ∧
      (points2grid2 ((grid2points2 [0] [1]).2.map (fun _ => (5 : ℚ)))
          (grid2points2 [0] [1]).2).2 (0, 0) = 5 :=
  ⟨(points2grid_roundtrip [0] [1] [2] (fun _ => 5) (fun _ => 5)
      (by decide) (by decide) (by decide)).1.1,
   (points2grid_roundtrip [0] [1] [2] (fun _ => 5) (fun _ => 5)
      (by decide) (by decide) (by decide)).1.2 (0, 0) (by decide) (by decide)⟩

theorem sum_cos_sin_roots (m : ℕ) (hm : 2 ≤ m) :
    (∑ k ∈ Finset.range m, Real.cos (2 * Real.pi * k / m)) = 0 ∧
    (∑ k ∈ Finset.range m, Real.sin (2 * Real.pi * k / m)) = 0 := by
  have hm0 : m ≠ 0 := by omega
  have hroot := Complex.isPrimitiveRoot_exp m hm0
  have hsum : ∑ k ∈ Finset.range m,
      Complex.exp (2 * Real.pi * Complex.I / m) ^ k = 0 :=
    hroot.geom_sum_eq_zero (by omega)
  have hterm : ∀ k : ℕ, Complex.exp (2 * Real.pi * Complex.I / m) ^ k
      = Complex.exp (((2 * Real.pi * k / m : ℝ) : ℂ) * Complex.I) := by
    intro k
    rw [← Complex.exp_nat_mul]
    congr 1
    push_cast
    ring
  rw [Finset.sum_congr rfl (fun k _ => hterm k)] at hsum
  constructor
  · have h := congrArg Complex.re hsum
    rw [Complex.re_sum] at h
    have hre : ∀ k ∈ Finset.range m,
        (Complex.exp (((2 * Real.pi * k / m : ℝ) : ℂ) * Complex.I)).re
          = Real.cos (2 * Real.pi * k / m) :=
      fun k _ => Complex.exp_ofReal_mul_I_re _
    rw [Finset.sum_congr rfl hre] at h
    exact h
  · have h := congrArg Complex.im hsum
    rw [Complex.im_sum] at h
    have him : ∀ k ∈ Finset.range m,
        (Complex.exp (((2 * Real.pi * k / m : ℝ) : ℂ) * Complex.I)).im
          = Real.sin (2 * Real.pi * k / m) :=
      fun k _ => Complex.exp_ofReal_mul_I_im _
    rw [Finset.sum_congr rfl him] at h
    exact h

theorem sum_cos_pi_reflect (m : ℕ) (hm : 1 ≤ m) :
    ∑ k ∈ Finset.range (m + 1), Real.cos (Real.pi * k / m) = 0 := by
  have hm0 : (m : ℝ) ≠ 0 := Nat.cast_ne_zero.mpr (by omega)
  have hrefl := Finset.sum_range_reflect
    (fun k => Real.cos (Real.pi * k / m)) (m + 1)
  have hneg : ∀ j ∈ Finset.range (m + 1),
      Real.cos (Real.pi * ((m + 1 - 1 - j : ℕ) : ℝ) / m)
        = - Real.cos (Real.pi * j / m) := by
    intro j hj
    rw [Finset.mem_range] at hj
    have hj1 : j ≤ m := by omega
    have hcast : ((m + 1 - 1 - j : ℕ) : ℝ) = (m : ℝ) - j := by
      have he : m + 1 - 1 - j = m - j := by omega
      rw [he, Nat.cast_sub hj1]
    rw [hcast]
    have hang : Real.pi * ((m : ℝ) - j) / m = Real.pi - Real.pi * j / m := by
      field_simp
      ring
    rw [hang, Real.cos_pi_sub]
  rw [Finset.sum_congr rfl hneg, Finset.sum_neg_distrib] at hrefl
  linarith [hrefl]

theorem uSample_succ (m k : ℕ) :
    uSample (m + 1) k = 2 * Real.pi * k / m := by
  simp only [uSample]
  push_cast
  ring_nf

theorem vSample_succ (m k : ℕ) :
    vSample (m + 1) k = Real.pi * k / m := by
  simp only [vSample]
  push_cast
  ring_nf

theorem weight_sum (m : ℕ) (hm : 2 ≤ m) :
    ∑ k ∈ Finset.range (m + 1), (if k < m then (1 : ℝ)/m else 0) = 1 := by
  have hm0 : (m : ℝ) ≠ 0 := Nat.cast_ne_zero.mpr (by omega)
  rw [Finset.sum_range_succ, if_neg (lt_irrefl m), add_zero]
  rw [Finset.sum_congr rfl
    (fun k hk => if_pos (Finset.mem_range.mp hk))]
  rw [Finset.sum_const, Finset.card_range, nsmul_eq_mul]
  field_simp

theorem weighted_cos_sum (m : ℕ) (hm : 2 ≤ m) :
    ∑ k ∈ Finset.range (m + 1),
      (if k < m then (1 : ℝ)/m else 0) * Real.cos (uSample (m + 1) k) = 0 := by
  rw [Finset.sum_range_succ, if_neg (lt_irrefl m), zero_mul, add_zero]
  have hc : ∀ k ∈ Finset.range m,
      (if k < m then (1 : ℝ)/m else 0) * Real.cos (uSample (m + 1) k)
        = (1/m) * Real.cos (2 * Real.pi * k / m) := by
    intro k hk
    rw [if_pos (Finset.mem_range.mp hk), uSample_succ]
  rw [Finset.sum_congr rfl hc, ← Finset.mul_sum,
    (sum_cos_sin_roots m hm).1, mul_zero]

theorem weighted_sin_sum (m : ℕ) (hm : 2 ≤ m) :
    ∑ k ∈ Finset.range (m + 1),
      (if k < m then (1 : ℝ)/m else 0) * Real.sin (uSample (m + 1) k) = 0 := by
  rw [Finset.sum_range_succ, if_neg (lt_irrefl m), zero_mul, add_zero]
  have hs : ∀ k ∈ Finset.range m,
      (if k < m then (1 : ℝ)/m else 0) * Real.sin (uSample (m + 1) k)
        = (1/m) * Real.sin (2 * Real.pi * k / m) := by
    intro k hk
    rw [if_pos (Finset.mem_range.mp hk), uSample_succ]
  rw [Finset.sum_congr rfl hs, ← Finset.mul_sum,
    (sum_cos_sin_roots m hm).2, mul_zero]

theorem center_mem_ellipse2 (g : StationGeom 2) (w : ℝ) (m : ℕ)
    (hm : 2 ≤ m) :
    g.c ∈ convexHull ℝ (getEllipse2 g w (m + 1)) := by
  have hm0 : (m : ℝ) ≠ 0 := Nat.cast_ne_zero.mpr (by omega)
  set ω : Fin (m + 1) → ℝ := fun k => if (k : ℕ) < m then (1 : ℝ)/m else 0
    with hω
  have hw0 : ∀ k ∈ Finset.univ, 0 ≤ ω k := by
    intro k _
    by_cases h : (k : ℕ) < m <;> simp [hω, h]
  have hS1 : ∑ k : Fin (m + 1), ω k = 1 := by
    rw [hω, Fin.sum_univ_eq_sum_range (fun k => if k < m then (1 : ℝ)/m else 0)]
    exact weight_sum m hm
  have hSc : ∑ k : Fin (m + 1), ω k * Real.cos (uSample (m + 1) (k : ℕ)) = 0 := by
    rw [hω, Fin.sum_univ_eq_sum_range
      (fun k => (if k < m then (1 : ℝ)/m else 0) * Real.cos (uSample (m + 1) k))]
    exact weighted_cos_sum m hm
  have hSs : ∑ k : Fin (m + 1), ω k * Real.sin (uSample (m + 1) (k : ℕ)) = 0 := by
    rw [hω, Fin.sum_univ_eq_sum_range
      (fun k => (if k < m then (1 : ℝ)/m else 0) * Real.sin (uSample (m + 1) k))]
    exact weighted_sin_sum m hm
  have hmem : ∀ k ∈ (Finset.univ : Finset (Fin (m + 1))),
      epoint2 g w (uSample (m + 1) (k : ℕ)) ∈ getEllipse2 g w (m + 1) :=
    fun k _ => ⟨k, rfl⟩
  have hmass := Finset.centerMass_mem_convexHull Finset.univ hw0
    (by rw [hS1]; norm_num) hmem
  have hcm : Finset.univ.centerMass ω
      (fun k : Fin (m + 1) => epoint2 g w (uSample (m + 1) (k : ℕ))) = g.c := by
    rw [Finset.centerMass, hS1, inv_one, one_smul]
    funext j
    rw [Finset.sum_apply]
    have expand : ∀ k : Fin (m + 1),
        (ω k • epoint2 g w (uSample (m + 1) (k : ℕ))) j
          = ω k * g.c j
            + (w * (Real.sqrt (g.s 0) * g.R j 0))
              * (ω k * Real.cos (uSample (m + 1) (k : ℕ)))
            + (w * (Real.sqrt (g.s 1) * g.R j 1))
              * (ω k * Real.sin (uSample (m + 1) (k : ℕ))) := by
      intro k
      simp only [Pi.smul_apply, smul_eq_mul, epoint2, edir2]
      ring
    rw [Finset.sum_congr rfl (fun k _ => expand k),
      Finset.sum_add_distrib, Finset.sum_add_distrib,
      ← Finset.sum_mul, ← Finset.mul_sum, ← Finset.mul_sum,
      hS1, hSc, hSs]
    ring
  rwa [hcm] at hmass

theorem sum_prod_factor {n1 n2 : ℕ} (F : Fin n1 → ℝ) (G : Fin n2 → ℝ) :
    ∑ kk : Fin n1 × Fin n2, F kk.1 * G kk.2
      = (∑ k : Fin n1, F k) * (∑ k : Fin n2, G k) := by
  rw [Fintype.sum_prod_type]
  have hinner : ∀ a ∈ (Finset.univ : Finset (Fin n1)),
      ∑ b : Fin n2, F a * G b = F a * ∑ b : Fin n2, G b :=
    fun a _ => (Finset.mul_sum _ _ _).symm
  rw [Finset.sum_congr rfl hinner, ← Finset.sum_mul]

theorem fin_weight_sum (m : ℕ) (hm : 2 ≤ m) :
    ∑ k : Fin (m + 1), (if (k : ℕ) < m then (1 : ℝ)/m else 0) = 1 := by
  rw [Fin.sum_univ_eq_sum_range (fun k => if k < m then (1 : ℝ)/m else 0)]
  exact weight_sum m hm

theorem fin_weighted_cos (m : ℕ) (hm : 2 ≤ m) :
    ∑ k : Fin (m + 1),
      (if (k : ℕ) < m then (1 : ℝ)/m else 0)
        * Real.cos (uSample (m + 1) (k : ℕ)) = 0 := by
  rw [Fin.sum_univ_eq_sum_range
    (fun k => (if k < m then (1 : ℝ)/m else 0) * Real.cos (uSample (m + 1) k))]
  exact weighted_cos_sum m hm

theorem fin_weighted_sin (m : ℕ) (hm : 2 ≤ m) :
    ∑ k : Fin (m + 1),
      (if (k : ℕ) < m then (1 : ℝ)/m else 0)
        * Real.sin (uSample (m + 1) (k : ℕ)) = 0 := by
  rw [Fin.sum_univ_eq_sum_range
    (fun k => (if k < m then (1 : ℝ)/m else 0) * Real.sin (uSample (m + 1) k))]
  exact weighted_sin_sum m hm

theorem fin_beta_sum (m : ℕ) :
    ∑ _k : Fin (m + 1), (1 : ℝ)/((m : ℝ) + 1) = 1 := by
  rw [Finset.sum_const, Finset.card_univ, Fintype.card_fin, nsmul_eq_mul]
  have h : ((m : ℝ) + 1) ≠ 0 := by positivity
  push_cast
  field_simp

theorem fin_beta_cos (m : ℕ) (hm : 1 ≤ m) :
    ∑ k : Fin (m + 1),
      ((1 : ℝ)/((m : ℝ) + 1)) * Real.cos (vSample (m + 1) (k : ℕ)) = 0 := by
  rw [← Finset.mul_sum]
  rw [Fin.sum_univ_eq_sum_range (fun k => Real.cos (vSample (m + 1) k))]
  have hv : ∀ k ∈ Finset.range (m + 1),
      Real.cos (vSample (m + 1) k) = Real.cos (Real.pi * k / m) :=
    fun k _ => by rw [vSample_succ]
  rw [Finset.sum_congr rfl hv, sum_cos_pi_reflect m hm, mul_zero]

theorem center_mem_ellipse3 (g : StationGeom 3) (w : ℝ) (m : ℕ)
    (hm : 2 ≤ m) :
    g.c ∈ convexHull ℝ (getEllipse3 g w (m + 1)) := by
  set ω : Fin (m + 1) → ℝ := fun k => if (k : ℕ) < m then (1 : ℝ)/m else 0
    with hω
  set β : Fin (m + 1) → ℝ := fun _ => (1 : ℝ)/((m : ℝ) + 1) with hβ
  set Ω : Fin (m + 1) × Fin (m + 1) → ℝ := fun kk => ω kk.1 * β kk.2 with hΩ
  have hw0 : ∀ kk ∈ (Finset.univ : Finset (Fin (m + 1) × Fin (m + 1))),
      0 ≤ Ω kk := by
    intro kk _
    have h1 : 0 ≤ ω kk.1 := by
      by_cases h : (kk.1 : ℕ) < m <;> simp [hω, h]
    have h2 : 0 ≤ β kk.2 := by positivity
    exact mul_nonneg h1 h2
  have hΩsum : ∑ kk : Fin (m + 1) × Fin (m + 1), Ω kk = 1 := by
    rw [hΩ]
    rw [sum_prod_factor ω β, fin_weight_sum m hm, fin_beta_sum m, mul_one]
  have hmem : ∀ kk ∈ (Finset.univ : Finset (Fin (m + 1) × Fin (m + 1))),
      epoint3 g w (uSample (m + 1) (kk.1 : ℕ)) (vSample (m + 1) (kk.2 : ℕ))
        ∈ getEllipse3 g w (m + 1) :=
    fun kk _ => ⟨kk, rfl⟩
  have hmass := Finset.centerMass_mem_convexHull Finset.univ hw0
    (by rw [hΩsum]; norm_num) hmem
  have hcm : Finset.univ.centerMass Ω
      (fun kk : Fin (m + 1) × Fin (m + 1) =>
        epoint3 g w (uSample (m + 1) (kk.1 : ℕ)) (vSample (m + 1) (kk.2 : ℕ)))
      = g.c := by
    rw [Finset.centerMass, hΩsum, inv_one, one_smul]
    funext j
    rw [Finset.sum_apply]
    have expand : ∀ kk : Fin (m + 1) × Fin (m + 1),
        (Ω kk • epoint3 g w (uSample (m + 1) (kk.1 : ℕ))
            (vSample (m + 1) (kk.2 : ℕ))) j
          = g.c j * (ω kk.1 * β kk.2)
            + (w * (Real.sqrt (g.s 0) * g.R j 0))
              * ((ω kk.1 * Real.cos (uSample (m + 1) (kk.1 : ℕ)))
                 * (β kk.2 * Real.sin (vSample (m + 1) (kk.2 : ℕ))))
            + (w * (Real.sqrt (g.s 1) * g.R j 1))
              * ((ω kk.1 * Real.sin (uSample (m + 1) (kk.1 : ℕ)))
                 * (β kk.2 * Real.sin (vSample (m + 1) (kk.2 : ℕ))))
            + (w * (Real.sqrt (g.s 2) * g.R j 2))
              * (ω kk.1
                 * (β kk.2 * Real.cos (vSample (m + 1) (kk.2 : ℕ)))) := by
      intro kk
      simp only [Pi.smul_apply, smul_eq_mul, epoint3, edir3, hΩ]
      ring
    rw [Finset.sum_congr rfl (fun kk _ => expand kk),
      Finset.sum_add_distrib, Finset.sum_add_distrib, Finset.sum_add_distrib,
      ← Finset.mul_sum, ← Finset.mul_sum, ← Finset.mul_sum, ← Finset.mul_sum,
      sum_prod_factor ω β,
      sum_prod_factor
        (fun k : Fin (m + 1) => ω k * Real.cos (uSample (m + 1) (k : ℕ)))
        (fun k : Fin (m + 1) => β k * Real.sin (vSample (m + 1) (k : ℕ))),
      sum_prod_factor
        (fun k : Fin (m + 1) => ω k * Real.sin (uSample (m + 1) (k : ℕ)))
        (fun k : Fin (m + 1) => β k * Real.sin (vSample (m + 1) (k : ℕ))),
      sum_prod_factor ω
        (fun k : Fin (m + 1) => β k * Real.cos (vSample (m + 1) (k : ℕ))),
      fin_weight_sum m hm, fin_beta_sum m,
      fin_weighted_cos m hm, fin_weighted_sin m hm,
      fin_beta_cos m (by omega)]
    ring
  rwa [hcm] at hmass

theorem epoint2_mem_hull (g : StationGeom 2) (w1 w2 u : ℝ) (m : ℕ)
    (hm : 2 ≤ m) (h0 : 0 ≤ w1) (h12 : w1 ≤ w2)
    (hu : ∃ k : Fin (m + 1), u = uSample (m + 1) (k : ℕ)) :
    epoint2 g w1 u ∈ convexHull ℝ (getEllipse2 g w2 (m + 1)) := by
  rcases eq_or_lt_of_le (h0.trans h12) with hw2 | hw2
  · have hw1 : w1 = 0 := le_antisymm (h12.trans hw2.symm.le) h0
    have hpt : epoint2 g w1 u = g.c := by
      funext j
      simp [epoint2, hw1]
    rw [hpt, ← hw2]
    exact center_mem_ellipse2 g 0 m hm
  · have ht0 : 0 ≤ w1 / w2 := div_nonneg h0 hw2.le
    have ht1 : w1 / w2 ≤ 1 := (div_le_one hw2).mpr h12
    have hpt : epoint2 g w1 u
        = (1 - w1/w2) • g.c + (w1/w2) • epoint2 g w2 u := by
      funext j
      simp only [Pi.add_apply, Pi.smul_apply, smul_eq_mul, epoint2]
      field_simp
      ring
    rw [hpt]
    have hc := center_mem_ellipse2 g w2 m hm
    have hp : epoint2 g w2 u ∈ convexHull ℝ (getEllipse2 g w2 (m + 1)) := by
      apply subset_convexHull
      obtain ⟨k, rfl⟩ := hu
      exact ⟨k, rfl⟩
    exact (convex_convexHull ℝ _) hc hp (by linarith) ht0 (by ring)

theorem epoint3_mem_hull (g : StationGeom 3) (w1 w2 u v : ℝ) (m : ℕ)
    (hm : 2 ≤ m) (h0 : 0 ≤ w1) (h12 : w1 ≤ w2)
    (hu : ∃ k : Fin (m + 1), u = uSample (m + 1) (k : ℕ))
    (hv : ∃ k : Fin (m + 1), v = vSample (m + 1) (k : ℕ)) :
    epoint3 g w1 u v ∈ convexHull ℝ (getEllipse3 g w2 (m + 1)) := by
  rcases eq_or_lt_of_le (h0.trans h12) with hw2 | hw2
  · have hw1 : w1 = 0 := le_antisymm (h12.trans hw2.symm.le) h0
    have hpt : epoint3 g w1 u v = g.c := by
      funext j
      simp [epoint3, hw1]
    rw [hpt, ← hw2]
    exact center_mem_ellipse3 g 0 m hm
  · have ht0 : 0 ≤ w1 / w2 := div_nonneg h0 hw2.le
    have ht1 : w1 / w2 ≤ 1 := (div_le_one hw2).mpr h12
    have hpt : epoint3 g w1 u v
        = (1 - w1/w2) • g.c + (w1/w2) • epoint3 g w2 u v := by
      funext j
      simp only [Pi.add_apply, Pi.smul_apply, smul_eq_mul, epoint3]
      field_simp
      ring
    rw [hpt]
    have hc := center_mem_ellipse3 g w2 m hm
    have hp : epoint3 g w2 u v ∈ convexHull ℝ (getEllipse3 g w2 (m + 1)) := by
      apply subset_convexHull
      obtain ⟨k1, rfl⟩ := hu
      obtain ⟨k2, rfl⟩ := hv
      exact ⟨(k1, k2), rfl⟩
    exact (convex_convexHull ℝ _) hc hp (by linarith) ht0 (by ring)

theorem segmentCloud2_hull_mono (stations : List (StationGeom 2))
    (w1 w2 : ℝ) (m : ℕ) (hm : 2 ≤ m) (h0 : 0 ≤ w1) (h12 : w1 ≤ w2) (i : ℕ) :
    convexHull ℝ (segmentCloud2 stations w1 (m + 1) i)
      ⊆ convexHull ℝ (segmentCloud2 stations w2 (m + 1) i) := by
  apply convexHull_min _ (convex_convexHull ℝ _)
  rintro p (hp | hp)
  · obtain ⟨k, rfl⟩ := hp
    exact convexHull_mono Set.subset_union_left
      (epoint2_mem_hull _ w1 w2 _ m hm h0 h12 ⟨k, rfl⟩)
  · obtain ⟨k, rfl⟩ := hp
    exact convexHull_mono Set.subset_union_right
      (epoint2_mem_hull _ w1 w2 _ m hm h0 h12 ⟨k, rfl⟩)

theorem segmentCloud3_hull_mono (stations : List (StationGeom 3))
    (w1 w2 : ℝ) (m : ℕ) (hm : 2 ≤ m) (h0 : 0 ≤ w1) (h12 : w1 ≤ w2) (i : ℕ) :
    convexHull ℝ (segmentCloud3 stations w1 (m + 1) i)
      ⊆ convexHull ℝ (segmentCloud3 stations w2 (m + 1) i) := by
  apply convexHull_min _ (convex_convexHull ℝ _)
  rintro p (hp | hp)
  · obtain ⟨kk, rfl⟩ := hp
    exact convexHull_mono Set.subset_union_left
      (epoint3_mem_hull _ w1 w2 _ _ m hm h0 h12 ⟨kk.1, rfl⟩ ⟨kk.2, rfl⟩)
  · obtain ⟨kk, rfl⟩ := hp
    exact convexHull_mono Set.subset_union_right
      (epoint3_mem_hull _ w1 w2 _ _ m hm h0 h12 ⟨kk.1, rfl⟩ ⟨kk.2, rfl⟩)

/-- C8 (amended): for nonnegative spread widths `w1 ≤ w2` (negative widths,
physically meaningless, break the property - see
`isInside_mono_counterexample`), every query point inside the tube at `w1` is
inside at `w2`, in both spatial dimensions: each `w1` ellipse sample point is
a convex combination of the station centre and the corresponding `w2` sample
point, the centre itself lying in the hull of its own sample cloud, so every
segment hull only grows with the width.  `m + 1 ≥ 3` is the per-ellipse
sample count (the grid query path always uses 12). -/
theorem isInside_pnts_monotone (st2 : List (StationGeom 2))
    (st3 : List (StationGeom 3)) (w1 w2 : ℝ) (m : ℕ)
    (p2 : Fin 2 → ℝ) (p3 : Fin 3 → ℝ)
    (h0 : 0 ≤ w1) (h12 : w1 ≤ w2) (hm : 2 ≤ m)
    (hS2 : 2 ≤ st2.length) (hS3 : 2 ≤ st3.length) :
    (isInside_pnts2 st2 w1 (m + 1) p2 → isInside_pnts2 st2 w2 (m + 1) p2) ∧
    (isInside_pnts3 st3 w1 (m + 1) p3 → isInside_pnts3 st3 w2 (m + 1) p3) := by
  constructor
  · rintro ⟨i, hi, hmem⟩
    exact ⟨i, hi, segmentCloud2_hull_mono st2 w1 w2 m hm h0 h12 i hmem⟩
  · rintro ⟨i, hi, hmem⟩
    exact ⟨i, hi, segmentCloud3_hull_mono st3 w1 w2 m hm h0 h12 i hmem⟩

/-- C8, counterexample to the original claim (which quantified over every
pair `w1 ≤ w2`): at the negative spread width `w1 = -1 ≤ 0 = w2` the point
`(-1, 0)` is a cloud point of the width `-1` tube of a two-station model at
the origin, but the width `0` tube collapses to the origin - monotonicity
fails for negative widths. -/
theorem isInside_mono_counterexample :
    ((-1 : ℝ) ≤ 0) ∧ isInside_pnts2 cexModel (-1) 12 cexP ∧
      ¬ isInside_pnts2 cexModel 0 12 cexP := by
  have hc : cexStation.c = fun _ => (0 : ℝ) := rfl
  have hP : cexP = epoint2 cexStation (-1) (uSample 12 0) := by
    funext j
    simp only [cexP, epoint2, edir2, uSample, cexStation]
    norm_num
  refine ⟨by norm_num, ⟨0, by norm_num [cexModel], ?_⟩, ?_⟩
  · apply subset_convexHull
    left
    show cexP ∈ getEllipse2 (cexModel.getD 0 default) (-1) 12
    have hg : cexModel.getD 0 default = cexStation := rfl
    rw [hg]
    exact ⟨(0 : Fin 12), by rw [hP]; norm_num⟩
  · rintro ⟨i, hi, hmem⟩
    have hi0 : i = 0 := by
      simp only [cexModel, List.length_cons, List.length_nil] at hi
      omega
    subst hi0
    have hconst : (fun k : Fin 12 => epoint2 cexStation 0 (uSample 12 (k : ℕ)))
        = fun _ => cexStation.c := by
      funext k j
      simp [epoint2]
    have hE : getEllipse2 cexStation 0 12 = {cexStation.c} := by
      rw [getEllipse2, hconst, Set.range_const]
    have hcloud : segmentCloud2 cexModel 0 12 0 = {cexStation.c} := by
      show getEllipse2 (cexModel.getD 0 default) 0 12 ∪
          getEllipse2 (cexModel.getD 1 default) 0 12 = {cexStation.c}
      have hg0 : cexModel.getD 0 default = cexStation := rfl
      have hg1 : cexModel.getD 1 default = cexStation := rfl
      rw [hg0, hg1, hE, Set.union_self]
    rw [in_hull, hcloud, convexHull_singleton] at hmem
    have h0 := congrFun hmem (0 : Fin 2)
    simp [cexP, hc] at h0

/-- Concrete instantiation of `isInside_pnts_monotone`. -/
theorem isInside_pnts_monotone_witness :
    (isInside_pnts2 cexModel 0 (11 + 1) (fun _ => 0) →
      isInside_pnts2 cexModel 1 (11 + 1) (fun _ => 0)) ∧
    (isInside_pnts3 cexModel3 0 (11 + 1) (fun _ => 0) →
      isInside_pnts3 cexModel3 1 (11 + 1) (fun _ => 0)) :=
  isInside_pnts_monotone cexModel cexModel3 0 1 11 (fun _ => 0) (fun _ => 0)
    (by norm_num) (by norm_num) (by norm_num)
    (by simp [cexModel]) (by simp [cexModel3])

end Teetool
